import Mathlib

/-!
# Verification of the memo-stt session orchestrator

Shallow embedding of the memo-stt push-to-talk dictation daemon (Rust) in
Lean 4, together with proofs of the specification claims about it.

Conventions of the embedding:
* machine integers are modelled as `Nat`/`Int` (all the arithmetic involved is
  far below any overflow boundary: shift amounts are capped at 4, delays at 30);
* `f32` arithmetic that only feeds comparisons and linear formulas is modelled
  exactly over `ℚ` (all concrete inputs used in counterexamples are small
  dyadic rationals, on which `f32` arithmetic is exact);
* Rust strings are modelled as `List Char` where character-level folds matter
  (text post-processing) and as `String` elsewhere;
* fallible Rust functions returning `Result` are modelled with `Except`;
* the external Whisper inference library and the external Opus codec are black
  boxes: they appear as function parameters of the embedded definitions.
-/

namespace MemoStt

/-! ## BLE reconnection backoff (src/main.rs, run_ble_audio_mode) -/

/-- `const RECONNECT_DELAY_BASE: u64 = 2;` from `run_ble_audio_mode`. -/
def RECONNECT_DELAY_BASE : Nat := 2

/-- `const RECONNECT_DELAY_MAX: u64 = 30;` from `run_ble_audio_mode`. -/
def RECONNECT_DELAY_MAX : Nat := 30

/-- The backoff delay computed in `run_ble_audio_mode` / `attempt_reconnect`:
`let attempts_capped = reconnect_attempts.min(4);`
`let delay_seconds = min(RECONNECT_DELAY_BASE * (1u64 << attempts_capped), RECONNECT_DELAY_MAX);`
(the shift amount is capped at 4, so the `u64` arithmetic never overflows and
is modelled exactly on `Nat`). -/
def reconnect_delay (reconnect_attempts : Nat) : Nat :=
  let attempts_capped := min reconnect_attempts 4
  min (RECONNECT_DELAY_BASE * (1 <<< attempts_capped)) RECONNECT_DELAY_MAX

/-- One reconnection try (`attempt_reconnect` / the tail of the outer loop in
`run_ble_audio_mode`): the delay is computed from the current counter value,
then `reconnect_attempts += 1`; on a successful `connect` the counter is set
back to `0`.  Returns (delay slept, counter after the try). -/
def reconnect_try (reconnect_attempts : Nat) (connect_ok : Bool) : Nat × Nat :=
  let delay_seconds := reconnect_delay reconnect_attempts
  let incremented := reconnect_attempts + 1
  (delay_seconds, if connect_ok then 0 else incremented)

/-! ## Prompt builder (src/main.rs, build_prompt closure) -/

/-- Rust's `Vec<String>::join(sep)` / `[String]::join(sep)`. -/
def joinWith (sep : String) : List String → String
  | [] => ""
  | [s] => s
  | s :: rest => s ++ sep ++ joinWith sep rest

/-- The mutable vocabulary cell updated from the `VOCAB:` stdin command. -/
structure Vocabulary where
  apps : List String
  commands : List String

/-- The `build_prompt` closure of `main` (identical in `run_ble_audio_mode`):
collects `parts`, pushing the app-context sentence when `app_name` is neither
empty nor `"Unknown"` (with or without the window title), then a single
vocabulary part joining the `Voice commands:` and `Commands:` sentences, and
returns `None` iff `parts` is empty, else `Some(parts.join(" "))`. -/
def build_prompt (app_name window_title : String) (vocab : Vocabulary) : Option String :=
  let parts : List String :=
    (if app_name ≠ "" ∧ app_name ≠ "Unknown" then
      [if window_title ≠ "" then
        "You are transcribing for " ++ app_name ++ ". The current window is: " ++
          window_title ++ "."
       else
        "You are transcribing for " ++ app_name ++ "."]
     else []) ++
    (if vocab.apps ≠ [] ∨ vocab.commands ≠ [] then
      let vocab_parts : List String :=
        (if vocab.apps ≠ [] then
          ["Voice commands: open " ++ joinWith ", " vocab.apps ++ "."] else []) ++
        (if vocab.commands ≠ [] then
          ["Commands: " ++ joinWith ", " vocab.commands ++ "."] else [])
      if vocab_parts ≠ [] then [joinWith " " vocab_parts] else []
     else [])
  if parts = [] then none else some (joinWith " " parts)

/-- The prompt as the specification describes it: the app sentence (with the
window-title form when the title is non-empty) exactly when `app_name` is
usable, followed by the `Voice commands:` sentence exactly when
`vocabulary.apps` is non-empty and the `Commands:` sentence exactly when
`vocabulary.commands` is non-empty, all space-separated; `None` exactly when
no sentence is produced. -/
def build_prompt_spec (app_name window_title : String) (vocab : Vocabulary) :
    Option String :=
  let sentences : List String :=
    ((if app_name ≠ "" ∧ app_name ≠ "Unknown" then
      [if window_title ≠ "" then
        "You are transcribing for " ++ app_name ++ ". The current window is: " ++
          window_title ++ "."
       else
        "You are transcribing for " ++ app_name ++ "."]
      else []) ++
     (if vocab.apps ≠ [] then
       ["Voice commands: open " ++ joinWith ", " vocab.apps ++ "."] else []) ++
     (if vocab.commands ≠ [] then
       ["Commands: " ++ joinWith ", " vocab.commands ++ "."] else []))
  if sentences = [] then none else some (joinWith " " sentences)

/-! ## Rust string primitives

Rust `&str` values are modelled as `List Char` (or as `String` wrapping its
character list).  `str::trim` and `str::split_whitespace` are modelled with
`Char.isWhitespace` as the whitespace predicate; both the embedded code and
the spec-side definitions use the same predicate, so the claims do not depend
on its exact extension. -/

/-- The whitespace predicate used by the string model. -/
def isWS (c : Char) : Bool := c.isWhitespace

/-- Rust's `str::trim_end`: remove the maximal all-whitespace suffix. -/
def rtrimList : List Char → List Char
  | [] => []
  | c :: cs =>
    let r := rtrimList cs
    if isWS c ∧ r = [] then [] else c :: r

/-- Rust's `str::trim`: remove leading and trailing whitespace. -/
def trimList (s : List Char) : List Char :=
  rtrimList (s.dropWhile isWS)

/-- `str::trim` on the `String` view. -/
def rustTrim (s : String) : String := ⟨trimList s.data⟩

/-- Word counter matching `str::split_whitespace(...).count()`: the number of
maximal non-whitespace runs.  The boolean accumulator records whether the scan
is currently inside a word. -/
def wcAux : Bool → List Char → Nat
  | _, [] => 0
  | in_word, c :: cs =>
    if isWS c then wcAux false cs
    else (if in_word then 0 else 1) + wcAux true cs

/-- `s.split_whitespace().count()`. -/
def wordCount (s : List Char) : Nat := wcAux false s

/-! ## Text post-processing (src/main.rs, strip_periods_from_short_phrases) -/

/-- The sentence delimiters of `strip_periods_from_short_phrases`:
`ch == '.' || ch == '!' || ch == '?'`. -/
def isTerminator (c : Char) : Bool := c = '.' || c = '!' || c = '?'

/-- One iteration of the character loop of `strip_periods_from_short_phrases`,
on the state `(result, current_phrase)`: a delimiter finishes the current
phrase (an empty trimmed phrase is dropped; a phrase of fewer than four words
is pushed without its delimiter; a longer phrase keeps it; either way a
single space follows and `current_phrase` is cleared), any other character is
accumulated. -/
def stripStep (st : List Char × List Char) (ch : Char) : List Char × List Char :=
  if isTerminator ch then
    let phrase := trimList st.2
    if phrase = [] then (st.1, [])
    else if wordCount phrase < 4 then (st.1 ++ phrase ++ [' '], [])
    else (st.1 ++ phrase ++ [ch, ' '], [])
  else (st.1, st.2 ++ [ch])

/-- `strip_periods_from_short_phrases`: run the character loop, append the
trimmed trailing text when non-empty, and trim the final result. -/
def strip_periods_from_short_phrases (text : List Char) : List Char :=
  let st := text.foldl stripStep ([], [])
  let result := if trimList st.2 ≠ [] then st.1 ++ trimList st.2 else st.1
  trimList result

/-- `true` iff the list contains no sentence delimiter. -/
def delimFreeb (l : List Char) : Bool := l.all fun c => !isTerminator c

/-- `true` iff the list starts with a non-whitespace character. -/
def headNWSb : List Char → Bool
  | [] => false
  | c :: _ => !isWS c

/-- `true` iff the list ends with a non-whitespace character. -/
def lastNWSb : List Char → Bool
  | [] => false
  | [c] => !isWS c
  | _ :: c :: cs => lastNWSb (c :: cs)

/-- A neat chunk of text: non-empty (implied by `headNWSb`), not starting or
ending in whitespace, and free of sentence delimiters. -/
def neatb (q : List Char) : Bool := headNWSb q && lastNWSb q && delimFreeb q

/-- Spec-side split of the input into `(phrase, delimiter)` segments followed
by the unterminated remainder, scanning left to right with the accumulated
current phrase. -/
def splitSegsAux (current : List Char) :
    List Char → List (List Char × Char) × List Char
  | [] => ([], current)
  | c :: cs =>
    if isTerminator c then
      let r := splitSegsAux [] cs
      ((current, c) :: r.1, r.2)
    else splitSegsAux (current ++ [c]) cs

/-- Split the whole input on the sentence delimiters. -/
def splitSegs (text : List Char) : List (List Char × Char) × List Char :=
  splitSegsAux [] text

/-- A processed phrase: either a phrase that lost (or never had) its
delimiter, or one that kept it. -/
inductive Piece
  | plain (q : List Char)
  | kept (q : List Char) (d : Char)
deriving DecidableEq

/-- The text of a processed phrase. -/
def pieceStr : Piece → List Char
  | .plain q => q
  | .kept q d => q ++ [d]

/-- Spec-side processing of one `(phrase, delimiter)` segment: trim the
phrase, drop it when empty, drop the delimiter when the phrase has fewer than
four whitespace-separated words, keep it otherwise. -/
def processSeg (p : List Char) (d : Char) : Option Piece :=
  let q := trimList p
  if q = [] then none
  else if wordCount q < 4 then some (.plain q) else some (.kept q d)

/-- The processed phrases of the input, in order: the processed delimited
segments followed by the trimmed unterminated remainder when non-empty. -/
def stripPieces (text : List Char) : List Piece :=
  (splitSegs text).1.filterMap (fun pd => processSeg pd.1 pd.2) ++
    (if trimList (splitSegs text).2 = [] then []
     else [.plain (trimList (splitSegs text).2)])

/-- Join chunks with a single inter-chunk space. -/
def joinPieces : List (List Char) → List Char
  | [] => []
  | [p] => p
  | p :: ps => p ++ ' ' :: joinPieces ps

/-- The claim's description of `strip_periods_from_short_phrases`: split the
input on `.`, `!`, `?`; drop each phrase's terminator when it has fewer than
four whitespace-separated words and keep it otherwise; join the kept phrases
with a single inter-phrase space; trim trailing whitespace from the result. -/
def strip_spec (text : List Char) : List Char :=
  rtrimList (joinPieces ((stripPieces text).map pieceStr))

/-- What the character loop emits for one `(phrase, delimiter)` segment. -/
def renderSeg (p : List Char) (d : Char) : List Char :=
  let q := trimList p
  if q = [] then []
  else if wordCount q < 4 then q ++ [' ']
  else q ++ [d, ' ']

/-- What the character loop emits for a list of segments. -/
def renderSegs (segs : List (List Char × Char)) : List Char :=
  (segs.map fun pd => renderSeg pd.1 pd.2).flatten

/-- What `strip_periods_from_short_phrases` appends for the unterminated
remainder. -/
def tailPart (rem : List Char) : List Char :=
  if trimList rem ≠ [] then trimList rem else []

/-- The shape of the `current_phrase` accumulator while re-scanning a joined
piece list: an optional leading space (present right after a delimiter)
followed by the already-collected plain pieces, each with its separating
space. -/
def curShape (ps : List (List Char)) (lead : Bool) : List Char :=
  (if lead then [' '] else []) ++ (ps.map (· ++ [' '])).flatten

/-- Whether the final piece kept its delimiter. -/
def lastIsKept : List Piece → Bool
  | [] => false
  | [.kept _ _] => true
  | [.plain _] => false
  | _ :: p :: ps => lastIsKept (p :: ps)

/-- Invariant of the pieces produced by the post-processing pass: plain
pieces are neat; kept pieces are neat with a genuine delimiter and at least
four words. -/
def goodPiece : Piece → Prop
  | .plain q => neatb q = true
  | .kept q d => neatb q = true ∧ isTerminator d = true ∧ 4 ≤ wordCount q

/-- What re-running the post-processing pass over a joined piece list yields
before the final trim, given the plain pieces `ps` already collected into the
pending phrase: the joined pieces, with one trailing space when the last
piece kept its delimiter. -/
def expectedRender (ps : List (List Char)) (pieces : List Piece) : List Char :=
  if pieces = [] then joinPieces ps
  else
    joinPieces (ps ++ pieces.map pieceStr) ++
      (if lastIsKept pieces then [' '] else [])

/-! ## STT engine (src/engine.rs, SttEngine::transcribe)

The Whisper inference (`state.full` plus segment extraction) is external and
appears as the black-box parameter `infer`, mapping the normalized/resampled
`f32` buffer to the list of segment texts it recognizes.  The `f32` sample
arithmetic is modelled exactly over `ℚ`; only the length of the buffer feeds
the control flow under verification here. -/

/-- The normalize-and-resample loop of `SttEngine::transcribe`: at a 16 kHz
input rate every sample is pushed as `s / 32768.0`; otherwise linear
interpolation at positions `i * ratio` (`ratio = input_rate / 16000`) produces
`out_len = max(floor(len / ratio), 1)` samples.  Indexing `samples[i0]` and
`samples[min (i0+1) (len-1)]` is modelled with `List.getD` (in the source the
index is in bounds for the rates the engine is constructed with). -/
def resampleBuffer (input_sample_rate : Nat) (samples : List Int) : List ℚ :=
  if input_sample_rate = 16000 then
    samples.map (fun (s : Int) => (s : ℚ) / 32768)
  else
    let ratio : ℚ := (input_sample_rate : ℚ) / 16000
    let out_len : Nat := max 1 (samples.length * 16000 / input_sample_rate)
    (List.range out_len).map (fun (i : Nat) =>
      let pos : ℚ := (i : ℚ) * ratio
      let i0 : Nat := i * input_sample_rate / 16000
      let i1 : Nat := min (i0 + 1) (samples.length - 1)
      let t : ℚ := pos - (i0 : ℚ)
      let s0 : ℚ := ((samples.getD i0 0 : Int) : ℚ) / 32768
      let s1 : ℚ := ((samples.getD i1 0 : Int) : ℚ) / 32768
      s0 * (1 - t) + s1 * t)

/-- The segment-joining loop at the end of `SttEngine::transcribe`: for each
segment, a space is pushed first when the accumulated text is non-empty, then
the trimmed segment text. -/
def joinSegments (segs : List String) : String :=
  segs.foldl (fun text seg =>
    (if text ≠ "" then text ++ " " else text) ++ rustTrim seg) ""

/-- `SttEngine::transcribe`: empty input returns `Ok("")` immediately; then
the input is normalized/resampled; a post-resample buffer shorter than 16000
samples is rejected with the `Audio too short` error; otherwise the (external)
inference runs on the buffer and the trimmed segment texts are joined. -/
def transcribe (input_sample_rate : Nat) (infer : List ℚ → List String)
    (samples : List Int) : Except String String :=
  if samples = [] then .ok ""
  else
    let buf := resampleBuffer input_sample_rate samples
    if buf.length < 16000 then
      .error ("Audio too short: " ++ toString buf.length ++ " samples")
    else
      .ok (joinSegments (infer buf))

/-! ## Microphone-mode recording state machine (src/main.rs, main) -/

/-- The `KeyEvent` channel messages sent by the keyboard listener and the BLE
trigger thread to the main loop. -/
inductive KeyEvent
  | StartRecording
  | StopRecording
  | ToggleLock
deriving DecidableEq, Repr

/-- The shared mutable state that the mic-mode main loop manipulates:
`is_recording` and `is_locked` atomics, the audio buffer, and whether a cpal
capture stream object is currently held in `recording_stream`. -/
structure MicState where
  is_recording : Bool
  is_locked : Bool
  buffer : List Int
  stream_open : Bool
deriving DecidableEq, Repr

/-- The `KeyRelease(trigger)` arm of the keyboard listener: a `StopRecording`
message is sent only when `is_locked` is false (`if !is_locked_listener.load
{ tx.send(StopRecording) }`). -/
def on_trigger_release (is_locked : Bool) : Option KeyEvent :=
  if is_locked then none else some .StopRecording

/-- One step of the mic-mode main loop (`loop { match rx.recv() ... }`),
returning the successor state together with the sample buffers handed to
freshly spawned transcription jobs.  `StartRecording` is guarded by the
compare-exchange on `is_recording` (stream creation is modelled as
succeeding); `StopRecording` likewise, dropping the stream and taking the
buffer in one critical section, spawning one job iff the taken buffer is
non-empty; `ToggleLock` flips `is_locked` and, when locking, starts recording
if idle, and when unlocking, performs the same stop-and-take sequence. -/
def handle_event (st : MicState) (e : KeyEvent) : MicState × List (List Int) :=
  match e with
  | .StartRecording =>
    if st.is_recording then (st, [])
    else
      ({ is_recording := true, is_locked := st.is_locked, buffer := [],
         stream_open := true }, [])
  | .StopRecording =>
    if st.is_recording then
      let samples := st.buffer
      ({ is_recording := false, is_locked := st.is_locked, buffer := [],
         stream_open := false },
       if samples = [] then [] else [samples])
    else (st, [])
  | .ToggleLock =>
    let now_locked := !st.is_locked
    if now_locked then
      if st.is_recording then ({ st with is_locked := true }, [])
      else
        ({ is_recording := true, is_locked := true, buffer := [],
           stream_open := true }, [])
    else
      if st.is_recording then
        let samples := st.buffer
        ({ is_recording := false, is_locked := false, buffer := [],
           stream_open := false },
         if samples = [] then [] else [samples])
      else ({ st with is_locked := false }, [])

/-! ## Transcription job event traces (src/main.rs) -/

/-- Externally observable steps of one transcription job, in program order. -/
inductive JobStep
  | setPrompt
  | calledTranscribe
  | recordedPerf
  | printedNoSpeech
  | emittedFinal
  | calledInject
  | injectSucceeded
  | injectFailed
  | printedError
deriving DecidableEq, Repr

/-- The step trace of the mic-mode transcription job (spawned thread in the
`StopRecording` handler of `main`): set prompt, transcribe; on `Ok(text)`
record the perf sample, then either the no-speech notice, or the `FINAL:`
line followed by the `inject_text` call whose success or failure is printed
afterwards; on `Err` only the error print. -/
def mic_job_steps (result : Except String String) (inject_ok : Bool) :
    List JobStep :=
  [.setPrompt, .calledTranscribe] ++
  match result with
  | .ok text =>
    [.recordedPerf] ++
    (if rustTrim text = "" then [.printedNoSpeech]
     else [.emittedFinal, .calledInject] ++
       (if inject_ok then [.injectSucceeded] else [.injectFailed]))
  | .error _ => [.printedError]

/-- The step trace of the BLE-mode transcription job (spawned thread in the
`Control(0x02)` handler of `run_ble_audio_mode`); its body has the same
program order as the mic job. -/
def ble_job_steps (result : Except String String) (inject_ok : Bool) :
    List JobStep :=
  [.setPrompt, .calledTranscribe] ++
  match result with
  | .ok text =>
    [.recordedPerf] ++
    (if rustTrim text = "" then [.printedNoSpeech]
     else [.emittedFinal, .calledInject] ++
       (if inject_ok then [.injectSucceeded] else [.injectFailed]))
  | .error _ => [.printedError]

/-! ## Opus bundle decoding (src/opus_decoder.rs, OpusDecoder::decode_bundle)

The libopus frame decoder is external; it appears as the parameter `df`
mapping a non-empty frame's bytes to its PCM samples (the theorems below
quantify over decoders that succeed on every frame — a decode error inside
`decode_frame` propagates out of `decode_bundle` through `?` in the source and
is outside this claim).  Bytes are modelled as `Nat`. -/

/-- `OpusDecoder::decode_frame`: empty frame data yields no samples without
touching the decoder; otherwise the external decoder runs. -/
def decode_frame (df : List Nat → List Int) (frame_data : List Nat) :
    Except String (List Int) :=
  if frame_data = [] then .ok [] else .ok (df frame_data)

/-- The frame loop of `decode_bundle` (`for frame_idx in 0..num_frames`),
recursing on the number of frames still allowed and on the bytes following
the already-consumed prefix.  A missing size byte (`offset >= len`) or a body
extending past the end (`offset + frame_size > len`) breaks the loop,
returning the samples accumulated so far with `Ok`. -/
def decode_bundle_frames (df : List Nat → List Int) :
    Nat → List Nat → Except String (List Int)
  | 0, _ => .ok []
  | _ + 1, [] => .ok []
  | frames_left + 1, frame_size :: rest =>
    if frame_size > rest.length then .ok []
    else do
      let decoded ← decode_frame df (rest.take frame_size)
      let more ← decode_bundle_frames df frames_left (rest.drop frame_size)
      pure (decoded ++ more)

/-- `OpusDecoder::decode_bundle`: empty input yields `Ok` with no samples;
otherwise the first byte is the frame count and the remainder is the sequence
of length-prefixed frames. -/
def decode_bundle (df : List Nat → List Int) (bundle_data : List Nat) :
    Except String (List Int) :=
  match bundle_data with
  | [] => .ok []
  | num_frames :: rest => decode_bundle_frames df num_frames rest

/-- Specification-side parse of the complete length-prefixed frames of a
bundle body: at most `num_frames` frames, stopping at the first frame whose
size byte or body would extend past the end of the input. -/
def completeFrames : Nat → List Nat → List (List Nat)
  | 0, _ => []
  | _ + 1, [] => []
  | frames_left + 1, frame_size :: rest =>
    if frame_size > rest.length then []
    else rest.take frame_size :: completeFrames frames_left (rest.drop frame_size)

/-! ## Performance projection (src/main.rs, calculate_rate_of_increase and
the rate_info block of the mic transcription job)

The `f32` statistics are modelled exactly over `ℚ`; the literal `1e-6` is
modelled as `1/1000000`. -/

/-- `n * sum_x2 - sum_x * sum_x` from `calculate_rate_of_increase`, where the
sums run over the `(audio_seconds, realtime_factor)` history. -/
def regression_denominator (history : List (ℚ × ℚ)) : ℚ :=
  (history.length : ℚ) * (history.map fun p => p.1 * p.1).sum -
    (history.map Prod.fst).sum * (history.map Prod.fst).sum

/-- The slope `(n * sum_xy - sum_x * sum_y) / denominator` from
`calculate_rate_of_increase`. -/
def regression_slope (history : List (ℚ × ℚ)) : ℚ :=
  ((history.length : ℚ) * (history.map fun p => p.1 * p.2).sum -
    (history.map Prod.fst).sum * (history.map Prod.snd).sum) /
    regression_denominator history

/-- `calculate_rate_of_increase`: `None` for fewer than two samples, `None`
when `denominator.abs() < 1e-6`, else `Some(slope)`. -/
def calculate_rate_of_increase (history : List (ℚ × ℚ)) : Option ℚ :=
  if history.length < 2 then none
  else if |regression_denominator history| < 1 / 1000000 then none
  else some (regression_slope history)

/-- The `rate_info` block of the mic transcription job: when the history has
at least two samples and the slope is available, the projections are
`last.1 + rate * (30.0 - last.0)` and `last.1 + rate * (60.0 - last.0)`,
anchored at the most recent history entry `last`. -/
def rate_info (history : List (ℚ × ℚ)) : Option (ℚ × ℚ × ℚ) :=
  if 2 ≤ history.length then
    match calculate_rate_of_increase history with
    | some rate =>
      match history.getLast? with
      | some last =>
        some (rate, last.2 + rate * (30 - last.1), last.2 + rate * (60 - last.1))
      | none => none
    | none => none
  else none

/-- Modelled from the spec's words for comparison with `rate_info`: fit a
least-squares line `rtf = a + b * audio_seconds` to the history and evaluate
it at `x` (`b` is the least-squares slope, `a = (sum_y - b * sum_x) / n` the
least-squares intercept), with the same sample-count and denominator guards
as the code. -/
def lsq_line_value (history : List (ℚ × ℚ)) (x : ℚ) : Option ℚ :=
  if history.length < 2 then none
  else if |regression_denominator history| < 1 / 1000000 then none
  else
    let b := regression_slope history
    let a := ((history.map Prod.snd).sum - b * (history.map Prod.fst).sum) /
      (history.length : ℚ)
    some (a + b * x)

end MemoStt

namespace MemoStt

/-- C5: the BLE reconnection delay for attempt counter value `a` equals
`min (2 * 2 ^ min a 4) 30` seconds; the successive delays for attempts 0..6
are exactly 2, 4, 8, 16, 30, 30, 30 (the raw 32 at attempt 4 capped to 30);
the counter is incremented once per try and reset to 0 on success. -/
theorem reconnect_backoff_schedule :
    (∀ a : Nat, reconnect_delay a = min (2 * 2 ^ min a 4) 30) ∧
    (List.range 7).map reconnect_delay = [2, 4, 8, 16, 30, 30, 30] ∧
    2 * 2 ^ 4 = 32 ∧
    (∀ a : Nat, (reconnect_try a false).2 = a + 1) ∧
    (∀ a : Nat, (reconnect_try a true).2 = 0) := by
  refine ⟨fun a => ?_, by decide, by decide, fun a => rfl, fun a => rfl⟩
  simp [reconnect_delay, RECONNECT_DELAY_BASE, RECONNECT_DELAY_MAX,
    Nat.shiftLeft_eq, one_mul]

/-- C7: `build_prompt` produces exactly the space-separated concatenation of
the app-context sentence (both-form when the window title is non-empty,
app-only form otherwise, and only when `app_name` is neither empty nor
"Unknown"), the `Voice commands: open …` sentence exactly when
`vocabulary.apps` is non-empty, and the `Commands: …` sentence exactly when
`vocabulary.commands` is non-empty — and returns `none` exactly when no part
is produced. -/
theorem build_prompt_correct (app_name window_title : String) (vocab : Vocabulary) :
    build_prompt app_name window_title vocab =
      build_prompt_spec app_name window_title vocab ∧
    (build_prompt app_name window_title vocab = none ↔
      ¬(app_name ≠ "" ∧ app_name ≠ "Unknown") ∧ vocab.apps = [] ∧
        vocab.commands = []) := by
  unfold build_prompt build_prompt_spec
  by_cases ha : app_name ≠ "" ∧ app_name ≠ "Unknown" <;>
    by_cases hw : window_title ≠ "" <;>
    by_cases hap : vocab.apps = [] <;>
    by_cases hc : vocab.commands = [] <;>
    simp [ha, hw, hap, hc, joinWith]

/-- C1: while a mic-mode recording session is locked, releasing the trigger
key never ends the session (the listener produces no `StopRecording` message
when locked, and neither `StartRecording` nor `StopRecording` handling
unlocks); only a `ToggleLock` event unlocks, and from a locked recording
state it stops the capture stream, takes the buffered samples in one critical
section (buffer left empty), and spawns exactly one transcription job — on
exactly the taken samples — iff the taken buffer is non-empty. -/
theorem locked_recording_semantics :
    on_trigger_release true = none ∧
    (∀ (rec stream : Bool) (buf : List Int),
      ((handle_event ⟨rec, true, buf, stream⟩ .StartRecording).1).is_locked = true ∧
      ((handle_event ⟨rec, true, buf, stream⟩ .StopRecording).1).is_locked = true) ∧
    (∀ (stream : Bool) (buf : List Int),
      handle_event ⟨true, true, buf, stream⟩ .ToggleLock =
        ({ is_recording := false, is_locked := false, buffer := [],
           stream_open := false },
         if buf = [] then [] else [buf]) ∧
      ((handle_event ⟨true, true, buf, stream⟩ .ToggleLock).2).length =
        (if buf = [] then 0 else 1)) := by
  refine ⟨rfl, fun rec stream buf => ⟨?_, ?_⟩, fun stream buf => ⟨?_, ?_⟩⟩ <;>
    cases rec' : buf <;>
    first
      | (cases rec <;> simp [handle_event])
      | simp [handle_event]

/-- C8: whenever transcription returns non-empty (post-trim) text, the
`FINAL:` JSON line is emitted strictly before `inject_text` is invoked, on
both the injection-success and injection-failure paths, in both the
microphone and the BLE transcription jobs. -/
theorem final_emitted_before_injection (text : String) (inject_ok : Bool)
    (h : rustTrim text ≠ "") :
    ((mic_job_steps (.ok text) inject_ok).findIdx (· == JobStep.emittedFinal) <
      (mic_job_steps (.ok text) inject_ok).findIdx (· == JobStep.calledInject) ∧
     JobStep.emittedFinal ∈ mic_job_steps (.ok text) inject_ok ∧
     JobStep.calledInject ∈ mic_job_steps (.ok text) inject_ok) ∧
    ((ble_job_steps (.ok text) inject_ok).findIdx (· == JobStep.emittedFinal) <
      (ble_job_steps (.ok text) inject_ok).findIdx (· == JobStep.calledInject) ∧
     JobStep.emittedFinal ∈ ble_job_steps (.ok text) inject_ok ∧
     JobStep.calledInject ∈ ble_job_steps (.ok text) inject_ok) := by
  cases inject_ok <;> simp [mic_job_steps, ble_job_steps, h] <;> decide

/-- Witness for C8 at a concrete utterance: text "hi" (non-empty after trim),
exercised on the injection-success path. -/
theorem final_emitted_before_injection_witness :
    (rustTrim "hi" ≠ "") ∧
    (((mic_job_steps (.ok "hi") true).findIdx (· == JobStep.emittedFinal) <
       (mic_job_steps (.ok "hi") true).findIdx (· == JobStep.calledInject) ∧
      JobStep.emittedFinal ∈ mic_job_steps (.ok "hi") true ∧
      JobStep.calledInject ∈ mic_job_steps (.ok "hi") true) ∧
     ((ble_job_steps (.ok "hi") true).findIdx (· == JobStep.emittedFinal) <
       (ble_job_steps (.ok "hi") true).findIdx (· == JobStep.calledInject) ∧
      JobStep.emittedFinal ∈ ble_job_steps (.ok "hi") true ∧
      JobStep.calledInject ∈ ble_job_steps (.ok "hi") true)) :=
  ⟨by decide, final_emitted_before_injection "hi" true (by decide)⟩

/-- Helper: the frame loop with an everywhere-succeeding frame decoder always
returns `Ok` with the concatenation of the decoded complete frames. -/
theorem decode_bundle_frames_eq (df : List Nat → List Int) :
    ∀ (k : Nat) (rest : List Nat),
      decode_bundle_frames df k rest =
        .ok (((completeFrames k rest).map
          (fun f => if f = [] then [] else df f)).flatten)
  | 0, _ => rfl
  | _ + 1, [] => rfl
  | k + 1, frame_size :: rest => by
    unfold decode_bundle_frames completeFrames
    split
    · rfl
    · simp only [decode_frame, decode_bundle_frames_eq df k (rest.drop frame_size),
        List.map_cons, List.flatten_cons]
      split <;> rfl

/-- Helper: the parsed complete frames never exceed the declared count. -/
theorem completeFrames_length_le :
    ∀ (k : Nat) (rest : List Nat), (completeFrames k rest).length ≤ k
  | 0, _ => Nat.le_refl 0
  | _ + 1, [] => Nat.zero_le _
  | k + 1, frame_size :: rest => by
    unfold completeFrames
    split
    · exact Nat.zero_le _
    · simpa using Nat.succ_le_succ (completeFrames_length_le k (rest.drop frame_size))

/-- C6: for every byte sequence (and every frame decoder that succeeds on
every frame), `decode_bundle` terminates with `Ok`: it decodes at most
`num_frames` (the first byte) length-prefixed frames, stops at the first
frame whose size byte or body would extend past the end of the input, and
returns the concatenation, in frame order, of the PCM decoded from the
preceding complete frames (empty frames decode to no samples without calling
the decoder). -/
theorem decode_bundle_safe (df : List Nat → List Int) :
    decode_bundle df [] = .ok [] ∧
    ∀ (num_frames : Nat) (rest : List Nat),
      decode_bundle df (num_frames :: rest) =
        .ok (((completeFrames num_frames rest).map
          (fun f => if f = [] then [] else df f)).flatten) ∧
      (completeFrames num_frames rest).length ≤ num_frames :=
  ⟨rfl, fun num_frames rest =>
    ⟨decode_bundle_frames_eq df num_frames rest,
     completeFrames_length_le num_frames rest⟩⟩

/-- C9 (counterexample): the projections are NOT the least-squares line
evaluated at 30 s and 60 s.  For the history `[(0,0), (2,2), (4,1)]`
(denominator 24, least-squares slope 1/4, intercept 1/2, all exact in `f32`)
the code projects `1 + (1/4)·(30−4) = 15/2` at 30 s, while the least-squares
line gives `1/2 + (1/4)·30 = 8`. -/
theorem rate_projection_claim_fails :
    rate_info [((0 : ℚ), (0 : ℚ)), (2, 2), (4, 1)] =
      some (1 / 4, 15 / 2, 15) ∧
    lsq_line_value [((0 : ℚ), (0 : ℚ)), (2, 2), (4, 1)] 30 = some 8 ∧
    ((15 : ℚ) / 2) ≠ 8 := by
  refine ⟨?_, ?_, by norm_num⟩ <;>
    simp [rate_info, calculate_rate_of_increase, lsq_line_value,
      regression_slope, regression_denominator] <;>
    norm_num

/-- C9 (amended): when the history holds at least two samples and the
regression denominator is at least 1e-6 in absolute value, the projected
realtime factors at 30 s and 60 s equal the line through the MOST RECENT
history sample with the least-squares slope `rate`, i.e.
`last.rtf + rate * (30 - last.audio_seconds)` and
`last.rtf + rate * (60 - last.audio_seconds)`; with fewer than two samples or
a smaller denominator no projection is produced. -/
theorem rate_projection_anchored_at_last (history : List (ℚ × ℚ)) (lx ly : ℚ)
    (hlast : history.getLast? = some (lx, ly)) (h2 : 2 ≤ history.length)
    (hd : ¬|regression_denominator history| < 1 / 1000000) :
    rate_info history =
      some (regression_slope history,
        ly + regression_slope history * (30 - lx),
        ly + regression_slope history * (60 - lx)) ∧
    (∀ h : List (ℚ × ℚ), h.length < 2 → rate_info h = none) ∧
    (∀ h : List (ℚ × ℚ), |regression_denominator h| < 1 / 1000000 →
      rate_info h = none) := by
  refine ⟨?_, fun h hlen => ?_, fun h habs => ?_⟩
  · rw [rate_info, if_pos h2, calculate_rate_of_increase,
      if_neg (by omega), if_neg hd, hlast]
  · rw [rate_info, if_neg (by omega)]
  · have hc : calculate_rate_of_increase h = none := by
      unfold calculate_rate_of_increase
      by_cases hlen2 : h.length < 2
      · rw [if_pos hlen2]
      · rw [if_neg hlen2, if_pos habs]
    rw [rate_info]
    by_cases hlen : 2 ≤ h.length
    · rw [if_pos hlen, hc]
    · rw [if_neg hlen]

/-- Witness for C9's amended theorem at the concrete history
`[(0,0), (2,2), (4,1)]` (last sample `(4,1)`, denominator 24, slope 1/4). -/
theorem rate_projection_anchored_at_last_witness :
    rate_info [((0 : ℚ), (0 : ℚ)), (2, 2), (4, 1)] =
      some (regression_slope [((0 : ℚ), (0 : ℚ)), (2, 2), (4, 1)],
        1 + regression_slope [((0 : ℚ), (0 : ℚ)), (2, 2), (4, 1)] * (30 - 4),
        1 + regression_slope [((0 : ℚ), (0 : ℚ)), (2, 2), (4, 1)] * (60 - 4)) ∧
    (∀ h : List (ℚ × ℚ), h.length < 2 → rate_info h = none) ∧
    (∀ h : List (ℚ × ℚ), |regression_denominator h| < 1 / 1000000 →
      rate_info h = none) :=
  rate_projection_anchored_at_last [((0 : ℚ), (0 : ℚ)), (2, 2), (4, 1)] 4 1
    rfl (by norm_num)
    (by rw [regression_denominator]; norm_num)

/-! ### String-model helper lemmas for the text post-processing claims -/

theorem isWS_space : isWS ' ' = true := by decide

theorem isWS_of_terminator {d : Char} (h : isTerminator d = true) :
    isWS d = false := by
  rcases Bool.or_eq_true _ _ |>.mp h with h' | h'
  · rcases Bool.or_eq_true _ _ |>.mp h' with h'' | h''
    · rw [show d = '.' from by simpa using h'']; decide
    · rw [show d = '!' from by simpa using h'']; decide
  · rw [show d = '?' from by simpa using h']; decide

theorem rtrim_cons (c : Char) (cs : List Char) :
    rtrimList (c :: cs) =
      if isWS c ∧ rtrimList cs = [] then [] else c :: rtrimList cs := rfl

theorem lastNWSb_cons_cons (c x : Char) (xs : List Char) :
    lastNWSb (c :: x :: xs) = lastNWSb (x :: xs) := rfl

theorem lastNWSb_cons_of_ne_nil (c : Char) {l : List Char} (h : l ≠ []) :
    lastNWSb (c :: l) = lastNWSb l := by
  cases l with
  | nil => exact absurd rfl h
  | cons x xs => rfl

theorem ne_nil_of_lastNWSb {l : List Char} (h : lastNWSb l = true) : l ≠ [] := by
  intro hnil; subst hnil; simp [lastNWSb] at h

theorem rtrim_eq_self {l : List Char} (h : lastNWSb l = true) :
    rtrimList l = l := by
  induction l with
  | nil => simp [lastNWSb] at h
  | cons c cs ih =>
    cases cs with
    | nil =>
      simp only [lastNWSb, Bool.not_eq_true'] at h
      simp [rtrimList, h]
    | cons x xs =>
      rw [lastNWSb_cons_cons] at h
      have hr := ih h
      rw [rtrim_cons, hr, if_neg (by simp)]

theorem lastNWSb_rtrim : ∀ l : List Char, rtrimList l ≠ [] →
    lastNWSb (rtrimList l) = true
  | [], h => absurd rfl h
  | c :: cs, h => by
    by_cases hc : isWS c ∧ rtrimList cs = []
    · simp [rtrimList, hc] at h
    · rw [rtrim_cons, if_neg hc]
      by_cases hcs : rtrimList cs = []
      · have hwc : isWS c = false := by
          by_cases hw : isWS c
          · exact absurd ⟨hw, hcs⟩ hc
          · simpa using hw
        rw [hcs]
        simp [lastNWSb, hwc]
      · rw [lastNWSb_cons_of_ne_nil c hcs]
        exact lastNWSb_rtrim cs hcs

theorem rtrim_append_ws (w : Char) (hw : isWS w = true) :
    ∀ l : List Char, rtrimList (l ++ [w]) = rtrimList l
  | [] => by simp [rtrimList, hw]
  | c :: cs => by
    have ih := rtrim_append_ws w hw cs
    rw [List.cons_append, rtrim_cons, rtrim_cons, ih]

theorem rtrim_append_right {y : List Char} (hy : lastNWSb y = true) :
    ∀ x : List Char, rtrimList (x ++ y) = x ++ y
  | [] => by simpa using rtrim_eq_self hy
  | c :: cs => by
    have ih := rtrim_append_right hy cs
    have hne : cs ++ y ≠ [] := by
      simp [ne_nil_of_lastNWSb hy]
    rw [List.cons_append, rtrim_cons, ih, if_neg (by simp [hne])]

theorem lastNWSb_append {y : List Char} (hy : lastNWSb y = true) :
    ∀ x : List Char, lastNWSb (x ++ y) = true
  | [] => hy
  | c :: cs => by
    have hne : cs ++ y ≠ [] := by simp [ne_nil_of_lastNWSb hy]
    rw [List.cons_append, lastNWSb_cons_of_ne_nil c hne]
    exact lastNWSb_append hy cs

theorem lastNWSb_concat (c : Char) : ∀ l : List Char,
    lastNWSb (l ++ [c]) = !isWS c
  | [] => rfl
  | x :: xs => by
    have hne : xs ++ [c] ≠ [] := by simp
    rw [List.cons_append, lastNWSb_cons_of_ne_nil x hne]
    exact lastNWSb_concat c xs

theorem dropWhile_eq_self_of_head {l : List Char} (h : headNWSb l = true) :
    l.dropWhile isWS = l := by
  cases l with
  | nil => simp [headNWSb] at h
  | cons c cs =>
    simp only [headNWSb, Bool.not_eq_true'] at h
    simp [List.dropWhile_cons, h]

theorem headNWSb_dropWhile : ∀ l : List Char, l.dropWhile isWS ≠ [] →
    headNWSb (l.dropWhile isWS) = true
  | [], h => absurd rfl h
  | c :: cs, h => by
    by_cases hc : isWS c
    · rw [List.dropWhile_cons, if_pos hc] at h ⊢
      exact headNWSb_dropWhile cs h
    · rw [List.dropWhile_cons, if_neg hc]
      simpa [headNWSb] using hc

theorem dropWhile_ws_cons (y : List Char) :
    (' ' :: y).dropWhile isWS = y.dropWhile isWS := by
  simp [List.dropWhile_cons, isWS_space]

theorem headNWSb_append {x : List Char} (h : headNWSb x = true)
    (y : List Char) : headNWSb (x ++ y) = true := by
  cases x with
  | nil => simp [headNWSb] at h
  | cons c cs => simpa [headNWSb] using h

theorem trim_of_neat {q : List Char} (h1 : headNWSb q = true)
    (h2 : lastNWSb q = true) : trimList q = q := by
  rw [trimList, dropWhile_eq_self_of_head h1, rtrim_eq_self h2]

theorem trim_space_cons (y : List Char) : trimList (' ' :: y) = trimList y := by
  rw [trimList, trimList, dropWhile_ws_cons]

theorem trim_neat {l : List Char} (h : trimList l ≠ []) :
    headNWSb (trimList l) = true ∧ lastNWSb (trimList l) = true := by
  refine ⟨?_, lastNWSb_rtrim _ h⟩
  rw [trimList] at h ⊢
  have hd : l.dropWhile isWS ≠ [] := by
    intro hnil
    rw [hnil] at h
    exact h rfl
  have hh := headNWSb_dropWhile l hd
  rcases hD : l.dropWhile isWS with _ | ⟨c, cs⟩
  · exact absurd hD hd
  · rw [hD] at hh
    simp only [headNWSb, Bool.not_eq_true'] at hh
    rw [rtrim_cons, if_neg (by simp [hh])]
    simp [headNWSb, hh]

theorem mem_rtrim : ∀ {x : Char} {l : List Char}, x ∈ rtrimList l → x ∈ l := by
  intro x l
  induction l with
  | nil => simp [rtrimList]
  | cons c cs ih =>
    simp only [rtrimList]
    split
    · simp
    · intro h
      rcases List.mem_cons.mp h with h | h
      · simp [h]
      · exact List.mem_cons_of_mem c (ih h)

theorem delimFreeb_trim {l : List Char} (h : delimFreeb l = true) :
    delimFreeb (trimList l) = true := by
  rw [delimFreeb, List.all_eq_true] at h ⊢
  intro x hx
  exact h x (List.Sublist.mem (mem_rtrim hx) (List.dropWhile_sublist _))

theorem wcAux_cons (inw : Bool) (c : Char) (cs : List Char) :
    wcAux inw (c :: cs) =
      if isWS c then wcAux false cs
      else (if inw then 0 else 1) + wcAux true cs := rfl

theorem wcAux_append_space (z : List Char) :
    ∀ (a : List Char) (inw : Bool),
      wcAux inw (a ++ ' ' :: z) = wcAux inw a + wcAux false z
  | [], inw => by simp [wcAux, isWS_space]
  | c :: cs, inw => by
    rw [List.cons_append, wcAux_cons, wcAux_cons]
    by_cases hc : isWS c
    · rw [if_pos hc, if_pos hc, wcAux_append_space z cs false]
    · rw [if_neg hc, if_neg hc, wcAux_append_space z cs true]
      omega

theorem joinPieces_cons (y : List Char) {ys : List (List Char)}
    (h : ys ≠ []) : joinPieces (y :: ys) = y ++ ' ' :: joinPieces ys := by
  cases ys with
  | nil => exact absurd rfl h
  | cons z zs => rfl

theorem joinPieces_append (rest : List (List Char)) (hr : rest ≠ []) :
    ∀ xs : List (List Char),
      joinPieces (xs ++ rest) =
        (xs.map (· ++ [' '])).flatten ++ joinPieces rest
  | [] => by simp
  | x :: xs => by
    have hne : xs ++ rest ≠ [] := by simp [hr]
    rw [List.cons_append, joinPieces_cons x hne, joinPieces_append rest hr xs]
    simp

theorem joinPieces_concat (xs : List (List Char)) (r : List Char) :
    joinPieces (xs ++ [r]) = (xs.map (· ++ [' '])).flatten ++ r := by
  rw [joinPieces_append [r] (by simp) xs]
  rfl

theorem flatten_spaces_eq (x : List Char) :
    ∀ xs : List (List Char),
      ((x :: xs).map (· ++ [' '])).flatten = joinPieces (x :: xs) ++ [' ']
  | [] => by simp [joinPieces]
  | y :: ys => by
    rw [joinPieces_cons x (by simp)]
    have ih := flatten_spaces_eq y ys
    simp only [List.map_cons, List.flatten_cons] at ih ⊢
    rw [ih]
    simp

theorem wordCount_join_concat {q : List Char} (hq : 4 ≤ wordCount q) :
    ∀ ps : List (List Char), 4 ≤ wordCount (joinPieces (ps ++ [q]))
  | [] => hq
  | p :: ps => by
    have hne : ps ++ [q] ≠ [] := by simp
    rw [List.cons_append, joinPieces_cons p hne, wordCount,
      wcAux_append_space (joinPieces (ps ++ [q])) p false]
    have := wordCount_join_concat hq ps
    rw [wordCount] at this
    omega

theorem headNWSb_joinPieces {p : List Char} (hp : headNWSb p = true) :
    ∀ ps : List (List Char), headNWSb (joinPieces (p :: ps)) = true
  | [] => hp
  | x :: xs => by
    rw [joinPieces_cons p (by simp)]
    exact headNWSb_append hp _

theorem lastNWSb_joinPieces :
    ∀ (pcs : List (List Char)), pcs ≠ [] →
      (∀ q ∈ pcs, lastNWSb q = true) → lastNWSb (joinPieces pcs) = true := by
  intro pcs hne hall
  rcases List.eq_nil_or_concat pcs with h | ⟨xs, z, h⟩
  · exact absurd h hne
  · subst h
    rw [List.concat_eq_append, joinPieces_concat]
    exact lastNWSb_append (hall z (by simp)) _

theorem joinPieces_ne_nil :
    ∀ (pcs : List (List Char)), pcs ≠ [] → (∀ q ∈ pcs, q ≠ []) →
      joinPieces pcs ≠ [] := by
  intro pcs hne hall
  cases pcs with
  | nil => exact absurd rfl hne
  | cons p ps =>
    cases ps with
    | nil => exact hall p (by simp)
    | cons x xs =>
      rw [joinPieces_cons p (by simp)]
      simp

theorem splitSegsAux_nil (cur : List Char) : splitSegsAux cur [] = ([], cur) :=
  rfl

theorem splitSegsAux_delim {d : Char} (hd : isTerminator d = true)
    (cur b : List Char) :
    splitSegsAux cur (d :: b) =
      ((cur, d) :: (splitSegsAux [] b).1, (splitSegsAux [] b).2) := by
  simp [splitSegsAux, hd]

theorem splitSegsAux_free :
    ∀ (a : List Char), delimFreeb a = true → ∀ (cur b : List Char),
      splitSegsAux cur (a ++ b) = splitSegsAux (cur ++ a) b
  | [], _, cur, b => by simp
  | c :: a', h, cur, b => by
    have hc : isTerminator c = false := by
      have := (List.all_eq_true.mp h) c (by simp)
      simpa using this
    have ha' : delimFreeb a' = true := by
      rw [delimFreeb, List.all_eq_true] at h ⊢
      intro x hx
      exact h x (by simp [hx])
    rw [List.cons_append]
    show splitSegsAux cur (c :: (a' ++ b)) = _
    rw [splitSegsAux, if_neg (by simp [hc])]
    rw [splitSegsAux_free a' ha' (cur ++ [c]) b]
    simp

theorem splitSegsAux_props :
    ∀ (t cur : List Char), delimFreeb cur = true →
      (∀ pd ∈ (splitSegsAux cur t).1,
        delimFreeb pd.1 = true ∧ isTerminator pd.2 = true) ∧
      delimFreeb (splitSegsAux cur t).2 = true
  | [], cur, hc => by
    rw [splitSegsAux_nil]
    exact ⟨by simp, hc⟩
  | c :: cs, cur, hc => by
    by_cases ht : isTerminator c
    · rw [splitSegsAux_delim ht]
      have ih := splitSegsAux_props cs [] rfl
      refine ⟨?_, ih.2⟩
      intro pd hpd
      rcases List.mem_cons.mp hpd with h | h
      · subst h; exact ⟨hc, ht⟩
      · exact ih.1 pd h
    · have hcur : delimFreeb (cur ++ [c]) = true := by
        rw [delimFreeb, List.all_eq_true] at hc ⊢
        intro x hx
        rcases List.mem_append.mp hx with h | h
        · exact hc x h
        · simp only [List.mem_singleton] at h
          subst h
          simpa using ht
      rw [splitSegsAux, if_neg (by simp [ht])]
      exact splitSegsAux_props cs (cur ++ [c]) hcur

theorem foldl_stripStep :
    ∀ (t res cur : List Char),
      t.foldl stripStep (res, cur) =
        (res ++ renderSegs (splitSegsAux cur t).1, (splitSegsAux cur t).2)
  | [], res, cur => by simp [splitSegsAux_nil, renderSegs]
  | c :: cs, res, cur => by
    by_cases ht : isTerminator c
    · rw [List.foldl_cons]
      have hstep : stripStep (res, cur) c = (res ++ renderSeg cur c, []) := by
        rw [stripStep, if_pos ht, renderSeg]
        by_cases h0 : trimList cur = []
        · simp [h0]
        · by_cases h4 : wordCount (trimList cur) < 4
          · simp [h0, h4]
          · simp [h0, h4]
      rw [hstep, foldl_stripStep cs (res ++ renderSeg cur c) [],
        splitSegsAux_delim ht]
      simp [renderSegs]
    · rw [List.foldl_cons]
      have hstep : stripStep (res, cur) c = (res, cur ++ [c]) := by
        rw [stripStep, if_neg (by simp [ht])]
      rw [hstep, foldl_stripStep cs res (cur ++ [c]), splitSegsAux,
        if_neg (by simp [ht])]

theorem renderSegs_filterMap :
    ∀ segs : List (List Char × Char),
      renderSegs segs =
        ((segs.filterMap fun pd => processSeg pd.1 pd.2).map
          fun p => pieceStr p ++ [' ']).flatten
  | [] => rfl
  | (p, d) :: segs => by
    have ih := renderSegs_filterMap segs
    rw [renderSegs, List.map_cons, List.flatten_cons, ← renderSegs, ih]
    show renderSeg p d ++ _ = _
    simp only [renderSeg, processSeg]
    by_cases h0 : trimList p = []
    · simp [h0]
    · by_cases h4 : wordCount (trimList p) < 4
      · simp [h0, h4, pieceStr]
      · simp [h0, h4, pieceStr]

theorem curShape_false (ps : List (List Char)) :
    curShape ps false = (ps.map (· ++ [' '])).flatten := by
  simp [curShape]

theorem curShape_true_cons (ps : List (List Char)) :
    curShape ps true = ' ' :: curShape ps false := by
  simp [curShape]

theorem trim_curShape_append {q : List Char} (hqh : headNWSb q = true)
    (hql : lastNWSb q = true) (ps : List (List Char))
    (hps : ∀ p ∈ ps, headNWSb p = true) (lead : Bool) :
    trimList (curShape ps lead ++ q) = joinPieces (ps ++ [q]) := by
  have base : trimList (curShape ps false ++ q) = joinPieces (ps ++ [q]) := by
    cases ps with
    | nil =>
      rw [curShape_false]
      simpa using trim_of_neat hqh hql
    | cons p ps' =>
      have hp := hps p (by simp)
      have hX : headNWSb (curShape (p :: ps') false ++ q) = true := by
        rw [curShape_false, List.map_cons, List.flatten_cons, List.append_assoc,
          List.append_assoc]
        exact headNWSb_append hp _
      rw [trimList, dropWhile_eq_self_of_head hX, rtrim_append_right hql,
        curShape_false, joinPieces_concat]
  cases lead with
  | false => exact base
  | true =>
    have hsp : curShape ps true ++ q = ' ' :: (curShape ps false ++ q) := by
      rw [curShape_true_cons, List.cons_append]
    rw [hsp, trim_space_cons, base]

theorem trim_curShape (ps : List (List Char))
    (hps : ∀ p ∈ ps, headNWSb p = true ∧ lastNWSb p = true) (lead : Bool) :
    trimList (curShape ps lead) = joinPieces ps := by
  have base : trimList (curShape ps false) = joinPieces ps := by
    cases ps with
    | nil => rfl
    | cons p ps' =>
      rw [curShape_false, flatten_spaces_eq]
      have hh : headNWSb (joinPieces (p :: ps')) = true :=
        headNWSb_joinPieces (hps p (by simp)).1 ps'
      have hl : lastNWSb (joinPieces (p :: ps')) = true :=
        lastNWSb_joinPieces _ (by simp) (fun a ha => (hps a ha).2)
      rw [trimList, dropWhile_eq_self_of_head (headNWSb_append hh _),
        rtrim_append_ws ' ' isWS_space, rtrim_eq_self hl]
  cases lead with
  | false => exact base
  | true => rw [curShape_true_cons, trim_space_cons, base]

theorem processSeg_neat {p : List Char} {d : Char} {pc : Piece}
    (h : processSeg p d = some pc) (hd : isTerminator d = true) :
    headNWSb (pieceStr pc) = true ∧ lastNWSb (pieceStr pc) = true := by
  simp only [processSeg] at h
  by_cases h0 : trimList p = []
  · simp [h0] at h
  · have hn := trim_neat h0
    by_cases h4 : wordCount (trimList p) < 4
    · simp only [if_neg h0, if_pos h4, Option.some.injEq] at h
      subst h
      simpa [pieceStr] using hn
    · simp only [if_neg h0, if_neg h4, Option.some.injEq] at h
      subst h
      refine ⟨headNWSb_append hn.1 _, ?_⟩
      rw [pieceStr, lastNWSb_concat, isWS_of_terminator hd]
      rfl

theorem processSeg_good {p : List Char} {d : Char} {pc : Piece}
    (hp : delimFreeb p = true) (hd : isTerminator d = true)
    (h : processSeg p d = some pc) : goodPiece pc := by
  simp only [processSeg] at h
  by_cases h0 : trimList p = []
  · simp [h0] at h
  · have hn := trim_neat h0
    have hdf := delimFreeb_trim hp
    by_cases h4 : wordCount (trimList p) < 4
    · simp only [if_neg h0, if_pos h4, Option.some.injEq] at h
      subst h
      simp [goodPiece, neatb, hn.1, hn.2, hdf]
    · simp only [if_neg h0, if_neg h4, Option.some.injEq] at h
      subst h
      refine ⟨?_, hd, by omega⟩
      simp [neatb, hn.1, hn.2, hdf]

theorem goodPiece_neatStr {pc : Piece} (h : goodPiece pc) :
    headNWSb (pieceStr pc) = true ∧ lastNWSb (pieceStr pc) = true := by
  cases pc with
  | plain q =>
    simp only [goodPiece, neatb, Bool.and_eq_true] at h
    exact ⟨h.1.1, h.1.2⟩
  | kept q d =>
    rcases h with ⟨hq, hd, _⟩
    simp only [neatb, Bool.and_eq_true] at hq
    refine ⟨headNWSb_append hq.1.1 _, ?_⟩
    rw [pieceStr, lastNWSb_concat, isWS_of_terminator hd]
    rfl

theorem strip_eq_trim_render (t : List Char) :
    strip_periods_from_short_phrases t =
      trimList (renderSegs (splitSegsAux [] t).1 ++
        tailPart (splitSegsAux [] t).2) := by
  rw [strip_periods_from_short_phrases, foldl_stripStep t [] []]
  simp only [List.nil_append, tailPart]
  by_cases h : trimList (splitSegsAux [] t).2 = []
  · simp [h]
  · simp [h]

theorem strip_pieces_neat (t : List Char) :
    ∀ s ∈ (((splitSegsAux [] t).1.filterMap
        fun pd => processSeg pd.1 pd.2).map pieceStr),
      headNWSb s = true ∧ lastNWSb s = true := by
  intro s hs
  rcases List.mem_map.mp hs with ⟨pc, hpc, rfl⟩
  rcases List.mem_filterMap.mp hpc with ⟨pd, hpd, hps⟩
  have hprops := (splitSegsAux_props t [] rfl).1 pd hpd
  exact processSeg_neat hps hprops.2

theorem strip_eq_spec_aux (t : List Char) :
    strip_periods_from_short_phrases t = strip_spec t := by
  have hneat := strip_pieces_neat t
  rw [strip_eq_trim_render, strip_spec, stripPieces, splitSegs,
    renderSegs_filterMap]
  rw [show (((splitSegsAux [] t).1.filterMap fun pd => processSeg pd.1 pd.2).map
      fun p => pieceStr p ++ [' ']) =
      ((((splitSegsAux [] t).1.filterMap fun pd => processSeg pd.1 pd.2).map
        pieceStr).map (· ++ [' '])) by rw [List.map_map]; rfl]
  set S := (((splitSegsAux [] t).1.filterMap
    fun pd => processSeg pd.1 pd.2).map pieceStr) with hS
  by_cases hr : trimList (splitSegsAux [] t).2 = []
  · rw [tailPart, if_neg (by simp [hr]), List.append_nil, if_pos hr,
      List.append_nil, ← curShape_false,
      trim_curShape S hneat false, ← hS]
    rcases hSe : S with _ | ⟨s0, S'⟩
    · rfl
    · rw [← hSe]
      have hlast : lastNWSb (joinPieces S) = true := by
        refine lastNWSb_joinPieces S (by simp [hSe]) ?_
        intro a ha
        exact (hneat a ha).2
      rw [rtrim_eq_self hlast]
  · rw [tailPart, if_pos (by simp [hr]), if_neg hr, ← curShape_false,
      trim_curShape_append (trim_neat hr).1 (trim_neat hr).2 S
        (fun p hp => (hneat p hp).1) false]
    rw [List.map_append, List.map_singleton]
    show joinPieces (S ++ [trimList (splitSegsAux [] t).2]) =
      rtrimList (joinPieces (S ++ [pieceStr
        (.plain (trimList (splitSegsAux [] t).2))]))
    rw [pieceStr]
    have hlast : lastNWSb
        (joinPieces (S ++ [trimList (splitSegsAux [] t).2])) = true := by
      refine lastNWSb_joinPieces _ (by simp) ?_
      intro a ha
      rcases List.mem_append.mp ha with h | h
      · exact (hneat a h).2
      · simp only [List.mem_singleton] at h
        subst h
        exact (trim_neat hr).2
    rw [rtrim_eq_self hlast]

theorem neatb_spec {q : List Char} (h : neatb q = true) :
    headNWSb q = true ∧ lastNWSb q = true ∧ delimFreeb q = true ∧ q ≠ [] := by
  rw [neatb, Bool.and_eq_true, Bool.and_eq_true] at h
  refine ⟨h.1.1, h.1.2, h.2, ?_⟩
  intro hnil
  have := h.1.1
  subst hnil
  simp [headNWSb] at this

theorem lastIsKept_cons (p : Piece) {rest : List Piece} (h : rest ≠ []) :
    lastIsKept (p :: rest) = lastIsKept rest := by
  cases rest with
  | nil => exact absurd rfl h
  | cons r rs => simp [lastIsKept]

theorem curShape_snoc (ps : List (List Char)) (a : List Char) (lead : Bool) :
    (curShape ps lead ++ a) ++ [' '] = curShape (ps ++ [a]) lead := by
  simp [curShape, List.append_assoc]

theorem renderSegs_cons (p : List Char) (d : Char)
    (segs : List (List Char × Char)) :
    renderSegs ((p, d) :: segs) = renderSeg p d ++ renderSegs segs := by
  rw [renderSegs, List.map_cons, List.flatten_cons]
  rfl

theorem curShape_delimFree (ps : List (List Char))
    (h : ∀ q ∈ ps, delimFreeb q = true) (lead : Bool) :
    delimFreeb (curShape ps lead) = true := by
  rw [delimFreeb, List.all_eq_true]
  intro c hc
  rw [curShape] at hc
  rcases List.mem_append.mp hc with h1 | h1
  · have hsp : c = ' ' := by cases lead <;> simp_all
    subst hsp
    decide
  · rcases List.mem_flatten.mp h1 with ⟨l, hl, hcl⟩
    rcases List.mem_map.mp hl with ⟨q, hq, rfl⟩
    rcases List.mem_append.mp hcl with h2 | h2
    · exact (List.all_eq_true.mp (h q hq)) c h2
    · simp only [List.mem_singleton] at h2
      subst h2
      decide

theorem ne_nil_join_snoc {ps : List (List Char)} {a : List Char}
    (hps : ∀ q ∈ ps, neatb q = true) (ha : a ≠ []) :
    joinPieces (ps ++ [a]) ≠ [] := by
  refine joinPieces_ne_nil _ (by simp) ?_
  intro q hq
  rcases List.mem_append.mp hq with h | h
  · exact (neatb_spec (hps q h)).2.2.2
  · simp only [List.mem_singleton] at h
    subst h
    exact ha

theorem tailPart_nil : tailPart [] = [] := rfl

/-- The re-scan fixed point: splitting and re-rendering the join of good
pieces, with the plain pieces `ps` already pending in the current phrase,
reproduces the joined text (with one trailing space iff the last piece kept
its delimiter). -/
theorem splitSegs_render_fixed :
    ∀ (pieces : List Piece), (∀ p ∈ pieces, goodPiece p) →
    ∀ (ps : List (List Char)), (∀ q ∈ ps, neatb q = true) → ∀ (lead : Bool),
      renderSegs (splitSegsAux (curShape ps lead)
          (joinPieces (pieces.map pieceStr))).1 ++
        tailPart (splitSegsAux (curShape ps lead)
          (joinPieces (pieces.map pieceStr))).2 =
      expectedRender ps pieces
  | [], _, ps, hps, lead => by
    rw [List.map_nil]
    show renderSegs (splitSegsAux (curShape ps lead) (joinPieces [])).1 ++
      tailPart (splitSegsAux (curShape ps lead) (joinPieces [])).2 = _
    rw [show joinPieces [] = [] from rfl, splitSegsAux_nil]
    show renderSegs [] ++ tailPart (curShape ps lead) = _
    rw [show renderSegs [] = [] from rfl, List.nil_append, tailPart,
      trim_curShape ps
        (fun q hq => ⟨(neatb_spec (hps q hq)).1, (neatb_spec (hps q hq)).2.1⟩)
        lead,
      expectedRender, if_pos rfl]
    rcases hps' : ps with _ | ⟨p0, ps'⟩
    · rw [if_neg (fun hcon => hcon rfl)]
      rfl
    · rw [if_pos (joinPieces_ne_nil _ (by simp)
        (fun q hq => (neatb_spec (hps q (hps' ▸ hq))).2.2.2))]
  | .plain a :: rest, hgood, ps, hps, lead => by
    have ha := neatb_spec (hgood (.plain a) (by simp))
    have hrest : ∀ p ∈ rest, goodPiece p := fun p hp => hgood p (by simp [hp])
    have hheads : ∀ p ∈ ps, headNWSb p = true :=
      fun p hp => (neatb_spec (hps p hp)).1
    by_cases hre : rest = []
    · -- last piece: the text is just `a`, which becomes the remainder
      subst hre
      have e1 : splitSegsAux (curShape ps lead)
          (joinPieces ((Piece.plain a :: []).map pieceStr)) =
          ([], curShape ps lead ++ a) := by
        show splitSegsAux (curShape ps lead) a = _
        have hfree := splitSegsAux_free a ha.2.2.1 (curShape ps lead) []
        rw [List.append_nil] at hfree
        rw [hfree, splitSegsAux_nil]
      rw [e1]
      show renderSegs [] ++ tailPart (curShape ps lead ++ a) = _
      rw [show renderSegs [] = [] from rfl, List.nil_append, tailPart,
        trim_curShape_append ha.1 ha.2.1 ps hheads lead,
        if_pos (ne_nil_join_snoc hps ha.2.2.2)]
      simp [expectedRender, lastIsKept, pieceStr]
    · -- a plain piece followed by more pieces: it joins the pending phrase
      have hmapne : rest.map pieceStr ≠ [] := by simp [hre]
      have e0 : joinPieces ((Piece.plain a :: rest).map pieceStr) =
          a ++ ' ' :: joinPieces (rest.map pieceStr) := by
        rw [List.map_cons]
        exact joinPieces_cons _ hmapne
      have e1 : splitSegsAux (curShape ps lead)
          (joinPieces ((Piece.plain a :: rest).map pieceStr)) =
          splitSegsAux (curShape (ps ++ [a]) lead)
            (joinPieces (rest.map pieceStr)) := by
        rw [e0, show a ++ ' ' :: joinPieces (rest.map pieceStr) =
          (a ++ [' ']) ++ joinPieces (rest.map pieceStr) by simp,
          show (a ++ [' ']) ++ joinPieces (rest.map pieceStr) =
            a ++ ([' '] ++ joinPieces (rest.map pieceStr)) by simp,
          splitSegsAux_free a ha.2.2.1,
          splitSegsAux_free [' '] (by decide), curShape_snoc]
      rw [e1, splitSegs_render_fixed rest hrest (ps ++ [a])
        (by
          intro w hw
          rcases List.mem_append.mp hw with h | h
          · exact hps w h
          · simp only [List.mem_singleton] at h
            subst h
            exact hgood (.plain w) (by simp)) lead]
      simp only [expectedRender, if_neg hre,
        if_neg (show ¬Piece.plain a :: rest = [] by simp)]
      rw [lastIsKept_cons _ hre, List.map_cons]
      simp [List.append_assoc, pieceStr]
  | .kept q d :: rest, hgood, ps, hps, lead => by
    rcases hgood (.kept q d) (by simp) with ⟨hq, hd, h4⟩
    have hqs := neatb_spec hq
    have hrest : ∀ p ∈ rest, goodPiece p := fun p hp => hgood p (by simp [hp])
    have hheads : ∀ p ∈ ps, headNWSb p = true :=
      fun p hp => (neatb_spec (hps p hp)).1
    have htrim : trimList (curShape ps lead ++ q) = joinPieces (ps ++ [q]) :=
      trim_curShape_append hqs.1 hqs.2.1 ps hheads lead
    have hne : trimList (curShape ps lead ++ q) ≠ [] := by
      rw [htrim]
      exact ne_nil_join_snoc hps hqs.2.2.2
    have hwc : ¬wordCount (trimList (curShape ps lead ++ q)) < 4 := by
      rw [htrim]
      have := wordCount_join_concat h4 ps
      omega
    have hrender : renderSeg (curShape ps lead ++ q) d =
        joinPieces (ps ++ [q]) ++ [d, ' '] := by
      simp only [renderSeg]
      rw [if_neg hne, if_neg hwc, htrim]
    by_cases hre : rest = []
    · -- last piece keeps its delimiter
      subst hre
      have e1 : splitSegsAux (curShape ps lead)
          (joinPieces ((Piece.kept q d :: []).map pieceStr)) =
          ([(curShape ps lead ++ q, d)], []) := by
        show splitSegsAux (curShape ps lead) (q ++ [d]) = _
        rw [splitSegsAux_free q hqs.2.2.1, splitSegsAux_delim hd,
          splitSegsAux_nil]
      rw [e1, renderSegs_cons, tailPart_nil, List.append_nil,
        show renderSegs [] = [] from rfl, List.append_nil, hrender]
      simp [expectedRender, lastIsKept, pieceStr, joinPieces_concat,
        List.append_assoc]
    · -- a kept piece followed by more pieces
      have hmapne : rest.map pieceStr ≠ [] := by simp [hre]
      have e0 : joinPieces ((Piece.kept q d :: rest).map pieceStr) =
          q ++ (d :: ' ' :: joinPieces (rest.map pieceStr)) := by
        rw [List.map_cons, joinPieces_cons _ hmapne]
        show (q ++ [d]) ++ ' ' :: joinPieces (rest.map pieceStr) = _
        simp
      have e1 : splitSegsAux (curShape ps lead)
          (joinPieces ((Piece.kept q d :: rest).map pieceStr)) =
          ((curShape ps lead ++ q, d) ::
            (splitSegsAux (curShape [] true)
              (joinPieces (rest.map pieceStr))).1,
           (splitSegsAux (curShape [] true)
              (joinPieces (rest.map pieceStr))).2) := by
        rw [e0, splitSegsAux_free q hqs.2.2.1, splitSegsAux_delim hd]
        have hsp := splitSegsAux_free [' '] (by decide) []
          (joinPieces (rest.map pieceStr))
        rw [show ([] : List Char) ++ [' '] = [' '] from rfl] at hsp
        rw [show (' ' :: joinPieces (rest.map pieceStr)) =
          [' '] ++ joinPieces (rest.map pieceStr) from rfl, hsp]
        rfl
      rw [e1, renderSegs_cons, List.append_assoc,
        splitSegs_render_fixed rest hrest [] (by simp) true, hrender]
      simp only [expectedRender, if_neg hre,
        if_neg (show ¬Piece.kept q d :: rest = [] by simp)]
      rw [lastIsKept_cons _ hre, List.nil_append, List.map_cons,
        joinPieces_append (pieceStr (Piece.kept q d) :: rest.map pieceStr)
          (by simp) ps,
        joinPieces_cons _ hmapne, joinPieces_concat]
      simp [pieceStr, List.append_assoc]

/-- Every piece the post-processing pass produces satisfies the invariant. -/
theorem stripPieces_good (t : List Char) :
    ∀ pc ∈ stripPieces t, goodPiece pc := by
  intro pc hpc
  rw [stripPieces, splitSegs] at hpc
  rcases List.mem_append.mp hpc with h | h
  · rcases List.mem_filterMap.mp h with ⟨pd, hpd, hps⟩
    have hprops := (splitSegsAux_props t [] rfl).1 pd hpd
    exact processSeg_good hprops.1 hprops.2 hps
  · by_cases hr : trimList (splitSegsAux [] t).2 = []
    · simp [hr] at h
    · rw [if_neg hr] at h
      simp only [List.mem_singleton] at h
      subst h
      have hn := trim_neat hr
      have hdf : delimFreeb (trimList (splitSegsAux [] t).2) = true :=
        delimFreeb_trim (splitSegsAux_props t [] rfl).2
      simp [goodPiece, neatb, hn.1, hn.2, hdf]

/-- The output of the post-processing pass is exactly the join of its good
pieces (the trailing trim removes nothing). -/
theorem strip_eq_join (t : List Char) :
    strip_periods_from_short_phrases t =
      joinPieces ((stripPieces t).map pieceStr) := by
  rw [strip_eq_spec_aux, strip_spec]
  rcases hX : (stripPieces t).map pieceStr with _ | ⟨x, X'⟩
  · rfl
  · rw [← hX]
    refine rtrim_eq_self (lastNWSb_joinPieces _ (by simp [hX]) ?_)
    intro a ha
    rcases List.mem_map.mp ha with ⟨pc, hpc, rfl⟩
    exact (goodPiece_neatStr (stripPieces_good t pc hpc)).2

/-- The join of good pieces is a fixed point of the post-processing pass. -/
theorem strip_fixed_of_good (pieces : List Piece)
    (hgood : ∀ p ∈ pieces, goodPiece p) :
    strip_periods_from_short_phrases (joinPieces (pieces.map pieceStr)) =
      joinPieces (pieces.map pieceStr) := by
  have hmain := splitSegs_render_fixed pieces hgood [] (by simp) false
  rw [show curShape [] false = [] by simp [curShape]] at hmain
  rw [strip_eq_trim_render, hmain, expectedRender]
  rcases hP : pieces with _ | ⟨p0, rest⟩
  · rfl
  · rw [← hP, if_neg (by simp [hP]), List.nil_append]
    have hstrs : ∀ s ∈ pieces.map pieceStr,
        headNWSb s = true ∧ lastNWSb s = true := by
      intro s hs
      rcases List.mem_map.mp hs with ⟨pc, hpc, rfl⟩
      exact goodPiece_neatStr (hgood pc hpc)
    have hh : headNWSb (joinPieces (pieces.map pieceStr)) = true := by
      rw [hP, List.map_cons]
      exact headNWSb_joinPieces
        (hstrs (pieceStr p0) (by simp [hP])).1 _
    have hl : lastNWSb (joinPieces (pieces.map pieceStr)) = true :=
      lastNWSb_joinPieces _ (by simp [hP]) (fun a ha => (hstrs a ha).2)
    by_cases hk : lastIsKept pieces
    · rw [if_pos hk, trimList,
        dropWhile_eq_self_of_head (headNWSb_append hh _),
        rtrim_append_ws ' ' isWS_space, rtrim_eq_self hl]
    · rw [if_neg hk, List.append_nil, trim_of_neat hh hl]

/-- C3: `strip_periods_from_short_phrases` computes exactly the claim's
description: split the input on '.', '!' and '?'; for each resulting phrase
drop the terminator when the (trimmed) phrase has fewer than four
whitespace-separated words and keep it otherwise (empty phrases contribute
nothing); join the kept phrases with a single inter-phrase space; trim
trailing whitespace from the result. -/
theorem strip_short_phrases_spec (t : List Char) :
    strip_periods_from_short_phrases t = strip_spec t :=
  strip_eq_spec_aux t

/-- C4: `strip_periods_from_short_phrases` is idempotent — applying it to its
own output returns that output unchanged, for every input string. -/
theorem strip_short_phrases_idempotent (t : List Char) :
    strip_periods_from_short_phrases (strip_periods_from_short_phrases t) =
      strip_periods_from_short_phrases t := by
  rw [strip_eq_join t]
  exact strip_fixed_of_good (stripPieces t) (stripPieces_good t)

/-- C2 (counterexample): the claim predicts an `AudioTooShort` error for
*every* slice whose post-resample audio has fewer than 16000 samples, but the
empty slice — whose post-resample buffer has 0 < 16000 samples — returns
`Ok("")` from the early return in `SttEngine::transcribe`. -/
theorem transcribe_empty_claim_fails :
    (resampleBuffer 16000 []).length < 16000 ∧
    transcribe 16000 (fun _ => []) [] = .ok "" :=
  ⟨by simp [resampleBuffer], rfl⟩

/-- C2 (amended): for every NON-empty input slice, `SttEngine::transcribe`
resamples from the configured input rate to 16 kHz (post-resample length
`len` at rate 16000, `max 1 ⌊len·16000/rate⌋` otherwise) and returns the
`Audio too short` error exactly when the post-resample buffer has fewer than
16000 samples; otherwise it returns `Ok` with the trimmed, space-joined
segment text, which is empty when no speech is detected. -/
theorem transcribe_nonempty_correct (sr : Nat) (infer : List ℚ → List String)
    (s : Int) (rest : List Int) :
    (resampleBuffer sr (s :: rest)).length =
      (if sr = 16000 then (s :: rest).length
       else max 1 ((s :: rest).length * 16000 / sr)) ∧
    (if (resampleBuffer sr (s :: rest)).length < 16000 then
      transcribe sr infer (s :: rest) =
        .error ("Audio too short: " ++
          toString (resampleBuffer sr (s :: rest)).length ++ " samples")
     else
      transcribe sr infer (s :: rest) =
        .ok (joinSegments (infer (resampleBuffer sr (s :: rest))))) ∧
    joinSegments [] = "" := by
  refine ⟨?_, ?_, rfl⟩
  · unfold resampleBuffer
    split <;> rw [List.length_map]
    rw [List.length_range]
  · unfold transcribe
    split <;> simp_all

/-- C10: `transcribe` on the empty slice returns `Ok("")` rather than an
`AudioTooShort` error, even though every non-empty input that resamples to
fewer than 16000 samples is rejected with an error. -/
theorem transcribe_empty_vs_short (sr : Nat) (infer : List ℚ → List String) :
    transcribe sr infer [] = .ok "" ∧
    ∀ (s : Int) (rest : List Int),
      (resampleBuffer sr (s :: rest)).length < 16000 →
      ∃ msg, transcribe sr infer (s :: rest) = .error msg := by
  refine ⟨rfl, fun s rest h => ?_⟩
  refine ⟨"Audio too short: " ++
    toString (resampleBuffer sr (s :: rest)).length ++ " samples", ?_⟩
  unfold transcribe
  simp [h]

/-- Witness for C10's theorem at concrete inputs: rate 16000, a one-sample
slice (which resamples to a 1-sample buffer, rejected) and the empty slice
(accepted with `Ok("")`). -/
theorem transcribe_empty_vs_short_witness :
    transcribe 16000 (fun _ => []) [] = .ok "" ∧
    ∃ msg, transcribe 16000 (fun _ => []) [(5 : Int)] = .error msg :=
  ⟨(transcribe_empty_vs_short 16000 (fun _ => [])).1,
   (transcribe_empty_vs_short 16000 (fun _ => [])).2 5 []
     (by simp [resampleBuffer])⟩

end MemoStt
